import Mathlib

/-!
Verification of the analysis core of `brutus.c` (PLD brute-force analyzer).

The definitions below are a shallow embedding of the C source `src/sw/brutus.c`.
Machine integers (`uint32_t`) are modelled as `Nat`; the C bitwise complement
`~x` on a 32-bit value is modelled by `compl32` (xor with the 32-bit all-ones
mask), which agrees with the C semantics on all bits `< 32`.  The global
per-pin term tables (`pinfo[bit].pi_ent`, `pi_count`) are modelled as
`List Ent`; in-place array writes become `List.set`, and the loop structure of
each C function is mirrored by folds over `List.range`.
-/

namespace Brutus

/-- Mask of the 32 low bits; the width of the `uint32_t` values used throughout
`brutus.c`. -/
def mask32 : Nat := 2 ^ 32 - 1

/-- Bitwise complement of a 32-bit value: the C expression `~x` evaluated on a
`uint32_t`.  On bits `< 32` this is logical negation; bits `≥ 32` are passed
through unchanged (they are absent from genuine 32-bit values). -/
def compl32 (x : Nat) : Nat := mask32 ^^^ x

/-- The `BIT(x)` macro of `brutus.c`: `1 << x`. -/
def BIT (x : Nat) : Nat := 1 <<< x

/-- One capture record: the pin vector driven into the PLD (`pld_in[line]`)
and the pin vector read back (`pld_out[line]`). -/
structure CapRec where
  pld_in : Nat
  pld_out : Nat

instance : Inhabited CapRec := ⟨⟨0, 0⟩⟩

/-- The pin-classification masks maintained by `analyze()` in `brutus.c`
(globals `pins_always_input`, `pins_output`, `pins_only_output_high`,
`pins_only_output_low` plus the locals `pins_touched`, `pins_always_low`,
`pins_always_high`). -/
structure PinMasks where
  pins_touched : Nat
  pins_always_low : Nat
  pins_always_high : Nat
  pins_always_input : Nat
  pins_output : Nat
  pins_only_output_high : Nat
  pins_only_output_low : Nat

/-- Initial values of the classification masks: the initializers of the
globals at brutus.c:58-61 and of the locals at brutus.c:1530-1535. -/
def classify_init : PinMasks :=
  { pins_touched := 0
    pins_always_low := mask32
    pins_always_high := mask32
    pins_always_input := mask32
    pins_output := 0
    pins_only_output_high := mask32
    pins_only_output_low := mask32 }

/-- One iteration of the classification loop of `analyze()`
(brutus.c:1543-1573) on a single capture record. -/
def classify_step (s : PinMasks) (r : CapRec) : PinMasks :=
  let write_mask := r.pld_in
  let read_mask := r.pld_out
  { pins_touched := s.pins_touched ||| write_mask
    pins_always_low := s.pins_always_low &&& compl32 read_mask
    pins_always_high := s.pins_always_high &&& read_mask
    pins_always_input := s.pins_always_input &&& compl32 (read_mask ^^^ write_mask)
    pins_output := s.pins_output ||| (read_mask ^^^ write_mask)
    pins_only_output_high := s.pins_only_output_high &&& (read_mask ||| compl32 write_mask)
    pins_only_output_low := s.pins_only_output_low &&& (compl32 read_mask ||| write_mask) }

/-- The single classification pass of `analyze()` over the whole capture. -/
def analyze_classify (recs : List CapRec) : PinMasks :=
  recs.foldl classify_step classify_init

/-- The function `build_ignore_mask()` (brutus.c:710-724): bits that were never
seen both as 0 and as 1 in the driven input vectors are ignored. -/
def build_ignore_mask (recs : List CapRec) : Nat :=
  let saw := recs.foldl
    (fun (p : Nat × Nat) r => (p.1 ||| compl32 r.pld_in, p.2 ||| r.pld_in)) (0, 0)
  compl32 (saw.1 &&& saw.2)

/-- Loop kernel of `bit_count()`: the C `while (mask != 0)` loop, driven by an
explicit fuel so that the definition is structurally recursive.  `mask`
itself is always enough fuel because the mask at least halves each round. -/
def bit_count_go (fuel mask : Nat) : Nat :=
  match fuel with
  | 0 => 0
  | f + 1 => if mask = 0 then 0 else (mask &&& 1) + bit_count_go f (mask >>> 1)

/-- The function `bit_count()` (brutus.c:817-827): population count computed by
repeated shifting. -/
def bit_count (mask : Nat) : Nat := bit_count_go mask mask

/-- The function `build_bit_flip_offsets()` (brutus.c:741-757): assign to every
non-ignored bit its ordinal position among the non-ignored bits (the global
array `bit_flip_pos[]`, zero-initialised). -/
def build_bit_flip_offsets (ignore : Nat) : Nat → Nat :=
  ((List.range 32).foldl
    (fun (st : (Nat → Nat) × Nat) bit =>
      if ignore.testBit bit then st
      else ((fun b => if b = bit then st.2 else st.1 b), st.2 + 1))
    ((fun _ => 0), 0)).1

/-- The output difference that one inner-loop iteration of
`walk_find_affected()` (brutus.c:768-808) ORs into `pins_affected_by[bit]`:
`pld_out[line] ^ pld_out[line ^ BIT(bit_flip_pos[bit])]`, with bit `bit`
masked off when the pin is an always-input pin. -/
def walk_rdiff (pins_always_input : Nat) (pos : Nat → Nat) (pld_out : List Nat)
    (line bit : Nat) : Nat :=
  let oline := line ^^^ BIT (pos bit)
  let rdiff := (pld_out.getD line 0) ^^^ (pld_out.getD oline 0)
  if pins_always_input.testBit bit then rdiff &&& compl32 (BIT bit) else rdiff

/-- The inner (per-line) bit loop of `walk_find_affected()`: walk bits
`0..27`, skip ignored bits, and OR the masked output difference into
`pins_affected_by[bit]`. -/
def walk_line (ignore pins_always_input : Nat) (pos : Nat → Nat)
    (pld_out : List Nat) (st : Nat → Nat) (line : Nat) : Nat → Nat :=
  (List.range 28).foldl
    (fun st2 bit =>
      if ignore.testBit bit then st2
      else fun b =>
        if b = bit then
          st2 bit ||| walk_rdiff pins_always_input pos pld_out line bit
        else st2 b)
    st

/-- The function `walk_find_affected()` (brutus.c:768-808).  The state is the
`pins_affected_by[]` array (zeroed by `analyze()` before the call), modelled
as a function from bit index to mask.  The verification `printf` on an
unexpected input difference has no effect on the state and is omitted. -/
def walk_find_affected (ignore pins_always_input : Nat) (pos : Nat → Nat)
    (pld_out : List Nat) : Nat → Nat :=
  (List.range pld_out.length).foldl
    (walk_line ignore pins_always_input pos pld_out)
    (fun _ => 0)

/-! ### The per-pin term tables -/

/-- One SOP term (`pi_ent_t`, brutus.c:68-73): the capture line it came from,
the observed output polarity, the required input values, and the support mask.
A term with `pie_affecting_bits = 0` is erased. -/
structure Ent where
  pie_line : Nat
  pie_result_bit : Nat
  pie_input_bits : Nat
  pie_affecting_bits : Nat
deriving DecidableEq

instance : Inhabited Ent := ⟨⟨0, 0, 0, 0⟩⟩

/-- The function `add_or_mask()` (brutus.c:951-996) acting on one pin's term
table.  `pi_count_max` is `pinfo[bit].pi_count_max` and `pins_affecting` is
`pins_affecting_pin[bit]`; the entry is discarded when an identical
`(input_bits, result_bit)` pair is already present or the table is full. -/
def add_or_mask (pi_count_max pins_affecting : Nat) (tbl : List Ent)
    (bit_state input_bits line : Nat) : List Ent :=
  if tbl.any (fun e =>
      e.pie_input_bits == input_bits && e.pie_result_bit == bit_state) then
    tbl
  else if pi_count_max ≤ tbl.length then tbl
  else tbl ++ [⟨line, bit_state, input_bits, pins_affecting⟩]

/-- The per-pin part of `collect_or_masks()` (brutus.c:1029-1067): walk the
capture and record, for output pin `bit`, each record's value
`!!(pld_out[line] & BIT(bit))` together with the relevant input projection
`pld_in[line] & pins_affecting_pin[bit]`. -/
def collect_or_masks_pin (pins_affecting bit : Nat) (recs : List CapRec) :
    List Ent :=
  (List.range recs.length).foldl
    (fun tbl line =>
      let r := recs.getD line default
      add_or_mask (1 <<< bit_count pins_affecting) pins_affecting tbl
        (if r.pld_out.testBit bit then 1 else 0)
        (r.pld_in &&& pins_affecting) line)
    []

/-- One pair examination of `merge_or_masks()` (brutus.c:1136-1153): when the
entries at `scur` and `cur` agree in `result_bit`, have equal non-zero
`affecting_bits`, and their `input_bits` agree outside `pinmask`, erase the
entry at `cur` and drop `pinmask` from the entry at `scur`. -/
def merge_pair (pinmask scur cur : Nat) (l : List Ent) : List Ent :=
  if (l.getD scur default).pie_affecting_bits ≠ 0 ∧
      (l.getD scur default).pie_affecting_bits =
        (l.getD cur default).pie_affecting_bits ∧
      (l.getD scur default).pie_result_bit =
        (l.getD cur default).pie_result_bit ∧
      (l.getD scur default).pie_input_bits &&& compl32 pinmask =
        (l.getD cur default).pie_input_bits &&& compl32 pinmask
  then
    (l.set cur { l.getD cur default with pie_affecting_bits := 0 }).set scur
      { l.getD scur default with
        pie_affecting_bits :=
          (l.getD scur default).pie_affecting_bits &&& compl32 pinmask }
  else l

/-- The body of `merge_or_masks()` (brutus.c:1105-1162) for one output pin
whose affect mask is `pins_affecting` (= `pins_affecting_pin[bit]`): for every
candidate variable `pin` in the support, sweep all ordered pairs
`scur < cur` and apply `merge_pair`.  The loop bounds use `pi_count`, which
the merge never changes, so they are taken from the incoming list. -/
def merge_or_masks_pin (pins_affecting : Nat) (l : List Ent) : List Ent :=
  (List.range 32).foldl
    (fun l0 pin =>
      if pins_affecting.testBit pin then
        (List.range (l0.length - 1)).foldl
          (fun l1 scur =>
            (List.range (l0.length - (scur + 1))).foldl
              (fun l2 off => merge_pair (BIT pin) scur (scur + 1 + off) l2)
              l1)
          l0
      else l0)
    l

/-- The compaction loop of `collapse_duplicates()` (brutus.c:1085-1093) for
one pin, run over the first `n` entries: state is the array being compacted
in place together with the write cursor `scur`.  Reads go to the original
array, which is faithful because every write lands at an index strictly below
the reading cursor. -/
def collapse_go (l : List Ent) (n : Nat) : List Ent × Nat :=
  (List.range n).foldl
    (fun (st : List Ent × Nat) cur =>
      if (l.getD cur default).pie_affecting_bits ≠ 0 then
        ((if cur ≠ st.2 then st.1.set st.2 (l.getD cur default) else st.1),
          st.2 + 1)
      else st)
    (l, 0)

/-- The function `collapse_duplicates()` (brutus.c:1075-1096) for one pin:
compact the table in place, keeping the entries whose `affecting_bits` is
non-zero, and truncate to the number of survivors (`pi_count = scur`). -/
def collapse_duplicates_pin (l : List Ent) : List Ent :=
  (collapse_go l l.length).1.take (collapse_go l l.length).2

/-- The one-variable-complementation rewrite of `eliminate_common_terms()`
(brutus.c:1264-1273), run after the absorption test on the possibly already
erased entry: when the entry at `scur` disagrees with the snapshot exactly on
`top_aff`, those bits are cleared from it and the rewrite counter is bumped. -/
def ect_complement (top_aff top_input : Nat) (st1 : List Ent × Nat)
    (scur : Nat) : List Ent × Nat :=
  if (top_input ^^^ (st1.1.getD scur default).pie_input_bits) &&& top_aff =
      top_aff then
    (st1.1.set scur
      { st1.1.getD scur default with
        pie_affecting_bits :=
          (st1.1.getD scur default).pie_affecting_bits &&&
            compl32 top_aff }, st1.2 + 1)
  else st1

/-- One inner-loop iteration of `eliminate_common_terms()`
(brutus.c:1215-1274): given the snapshot `top_result` / `top_aff` /
`top_input` taken at the start of the `cur` iteration, examine the entry at
`scur`.  The absorption rewrite (brutus.c:1236-1250) erases it; then the
complementation rewrite is tested on the updated entry. -/
def ect_inner (top_result top_aff top_input cur : Nat)
    (st : List Ent × Nat) (scur : Nat) : List Ent × Nat :=
  if scur = cur then st
  else if (st.1.getD scur default).pie_result_bit ≠ top_result then st
  else if (st.1.getD scur default).pie_affecting_bits &&& top_aff ≠
      top_aff then st
  else
    ect_complement top_aff top_input
      (if top_aff &&& (st.1.getD scur default).pie_input_bits = top_input
       then
        (st.1.set scur
          { st.1.getD scur default with pie_affecting_bits := 0 }, st.2)
       else st)
      scur

/-- The body of `eliminate_common_terms()` (brutus.c:1171-1278) for one output
pin, threading the function-wide rewrite counter `count`.  The `top_*`
snapshot is read from the current state at the start of each `cur`
iteration; the inner loop never modifies the entry at `cur`. -/
def eliminate_common_terms_pin (l : List Ent) (count0 : Nat) :
    List Ent × Nat :=
  (List.range l.length).foldl
    (fun st cur =>
      if (st.1.getD cur default).pie_affecting_bits = 0 then st
      else
        (List.range l.length).foldl
          (ect_inner (st.1.getD cur default).pie_result_bit
            (st.1.getD cur default).pie_affecting_bits
            ((st.1.getD cur default).pie_input_bits &&&
              (st.1.getD cur default).pie_affecting_bits) cur)
          st)
    (l, count0)

/-- The function `eliminate_common_terms()` over the whole device: iterate the
output pins in ascending order, skipping ignored pins, non-output pins and
empty tables, and accumulate the complementation-rewrite count across pins.
The 32 per-pin tables are modelled as a list of term lists. -/
def eliminate_common_terms (ignore pins_output : Nat)
    (tbl : List (List Ent)) : List (List Ent) × Nat :=
  (List.range 32).foldl
    (fun st pin =>
      if ignore.testBit pin then st
      else if pins_output.testBit pin then
        if (st.1.getD pin []).length = 0 then st
        else
          ((st.1.set pin
              (eliminate_common_terms_pin (st.1.getD pin []) st.2).1),
            (eliminate_common_terms_pin (st.1.getD pin []) st.2).2)
      else st)
    (tbl, 0)

/-- The driver loop around `eliminate_common_terms()` in `main()`
(brutus.c:1693-1699): repeat while the pass reports more than one rewrite;
give up (cap hit, `Bool` result `true`) after the bounded number of repeats.
`main` allows 11 loop-body executions (`count++ > 10`), i.e. at most 12 calls,
so the loop is entered with `fuel = 11`. -/
def ect_loop : Nat → Nat → Nat → List (List Ent) → List (List Ent) × Bool
  | 0, ignore, pout, tbl =>
    if (eliminate_common_terms ignore pout tbl).2 > 1 then
      ((eliminate_common_terms ignore pout tbl).1, true)
    else ((eliminate_common_terms ignore pout tbl).1, false)
  | fuel + 1, ignore, pout, tbl =>
    if (eliminate_common_terms ignore pout tbl).2 > 1 then
      ect_loop fuel ignore pout (eliminate_common_terms ignore pout tbl).1
    else ((eliminate_common_terms ignore pout tbl).1, false)

/-- The function `is_contained_within()` (brutus.c:1307-1364): every term of
`sub` at polarity `result_bit` must be covered (support and required inputs
both subsets) by some term of `sup` at the same polarity.  In the C code the
inner loop breaks at the first cover, and its `matched`-guarded consistency
test can never fire (the `matched` flag it reads is the one declared inside
the outer loop, which is still 0 whenever the test is reached), so the inner
loop is exactly a first-match search. -/
def is_contained_within (sup sub : List Ent) (result_bit : Nat) : Bool :=
  (List.range sub.length).all (fun subcur =>
    let t := sub.getD subcur default
    if t.pie_result_bit ≠ result_bit then true
    else
      (List.range sup.length).any (fun supcur =>
        let u := sup.getD supcur default
        u.pie_result_bit == result_bit &&
        (u.pie_affecting_bits &&& t.pie_affecting_bits ==
          t.pie_affecting_bits) &&
        (u.pie_input_bits &&& t.pie_input_bits == t.pie_input_bits)))

/-- The rewrite applied by `merge_common_subexpression()` to the first covering
term `u` of the superset pin (brutus.c:1420-1432): the covered support of the
sub term `t` is replaced by the single bit `subbit`, whose required input
value becomes the polarity `result_bit`. -/
def mcs_rewrite (subbit result_bit : Nat) (u t : Ent) : Ent :=
  { u with
    pie_affecting_bits :=
      (u.pie_affecting_bits &&& compl32 t.pie_affecting_bits) ||| BIT subbit,
    pie_input_bits :=
      if result_bit ≠ 0 then u.pie_input_bits ||| BIT subbit
      else u.pie_input_bits &&& compl32 (BIT subbit) }

/-- The function `merge_common_subexpression()` (brutus.c:1372-1442): for each
term of `sub` at polarity `result_bit`, find the first covering term of `sup`
(the inner loop breaks on its first hit).  On the first hit of the whole call
(`matched`, declared at function scope, still 0) the covering term is rewritten
to reference pin `subbit`; on every later hit it is erased. -/
def merge_common_subexpression (subbit result_bit : Nat)
    (sup sub : List Ent) : List Ent :=
  ((List.range sub.length).foldl
    (fun (st : List Ent × Bool) subcur =>
      if (sub.getD subcur default).pie_result_bit ≠ result_bit then st
      else
        match (List.range st.1.length).find? (fun supcur =>
            (st.1.getD supcur default).pie_result_bit == result_bit &&
            ((st.1.getD supcur default).pie_affecting_bits &&&
                (sub.getD subcur default).pie_affecting_bits ==
              (sub.getD subcur default).pie_affecting_bits) &&
            ((st.1.getD supcur default).pie_input_bits &&&
                (sub.getD subcur default).pie_input_bits ==
              (sub.getD subcur default).pie_input_bits)) with
        | none => st
        | some supcur =>
          if st.2 then
            (st.1.set supcur
              { st.1.getD supcur default with pie_affecting_bits := 0 },
              true)
          else
            (st.1.set supcur
              (mcs_rewrite subbit result_bit (st.1.getD supcur default)
                (sub.getD subcur default)), true))
    (sup, false)).1

/-- Absorption-rewrite firability, stated with the vocabulary of spec §4.7 /
claim C2: a pair of live terms `A` (at `cur`) and `B` (at `scur`) with equal
`result_bit`, `B`'s support containing `A`'s support, and `B` agreeing with
`A` on all of `A`'s support.  On such a pair one more pass of
`eliminate_common_terms()` would erase `B`. -/
def absorb_fireable (l : List Ent) : Bool :=
  (List.range l.length).any fun cur =>
    (List.range l.length).any fun scur =>
      let A := l.getD cur default
      let B := l.getD scur default
      scur != cur &&
      A.pie_affecting_bits != 0 &&
      B.pie_result_bit == A.pie_result_bit &&
      (B.pie_affecting_bits &&& A.pie_affecting_bits ==
        A.pie_affecting_bits) &&
      (A.pie_affecting_bits &&& B.pie_input_bits ==
        A.pie_input_bits &&& A.pie_affecting_bits)

/-- Invariant of the `merge_common_subexpression()` loop over the sub terms
(claim C6): the sup table keeps its length; nothing is touched before the
first hit; and at any point every sup entry is (i) unchanged, (ii) erased, or
(iii) rewritten by `mcs_rewrite` from some covering sub term at the polarity,
with at most one entry in state (iii). -/
def mcs_inv (subbit pol : Nat) (sup sub : List Ent)
    (st : List Ent × Bool) : Prop :=
  st.1.length = sup.length ∧
  (st.2 = false → st.1 = sup) ∧
  (∀ j, j < sup.length →
    st.1.getD j default = sup.getD j default ∨
    (st.1.getD j default).pie_affecting_bits = 0 ∨
    ∃ t ∈ sub, t.pie_result_bit = pol ∧
      (sup.getD j default).pie_affecting_bits &&& t.pie_affecting_bits =
        t.pie_affecting_bits ∧
      (sup.getD j default).pie_input_bits &&& t.pie_input_bits =
        t.pie_input_bits ∧
      st.1.getD j default = mcs_rewrite subbit pol (sup.getD j default) t) ∧
  (∀ j1 j2, j1 < sup.length → j2 < sup.length →
    st.1.getD j1 default ≠ sup.getD j1 default →
    (st.1.getD j1 default).pie_affecting_bits ≠ 0 →
    st.1.getD j2 default ≠ sup.getD j2 default →
    (st.1.getD j2 default).pie_affecting_bits ≠ 0 → j1 = j2)

/-- Support-containment invariant of spec §3/§8 (claim C5): every term of the
table has its `affecting_bits` inside the mask `M`. -/
def aff_subset_inv (M : Nat) (l : List Ent) : Prop :=
  ∀ e ∈ l, e.pie_affecting_bits &&& M = e.pie_affecting_bits

instance aff_subset_inv_decidable (M : Nat) (l : List Ent) :
    Decidable (aff_subset_inv M l) :=
  inferInstanceAs
    (Decidable (∀ e ∈ l, e.pie_affecting_bits &&& M = e.pie_affecting_bits))

/-! ### Basic bit-level helper lemmas -/

theorem testBit_mask32 (i : Nat) : mask32.testBit i = decide (i < 32) :=
  Nat.testBit_two_pow_sub_one 32 i

theorem testBit_compl32 {i : Nat} (x : Nat) (h : i < 32) :
    (compl32 x).testBit i = !x.testBit i := by
  simp [compl32, Nat.testBit_xor, testBit_mask32, h]

theorem testBit_compl32_ge {i : Nat} (x : Nat) (h : 32 ≤ i) :
    (compl32 x).testBit i = x.testBit i := by
  simp [compl32, Nat.testBit_xor, testBit_mask32, Nat.not_lt.mpr h]

theorem compl32_compl32 (x : Nat) : compl32 (compl32 x) = x := by
  simp [compl32, ← Nat.xor_assoc]

theorem BIT_eq_pow (x : Nat) : BIT x = 2 ^ x := by
  simp [BIT, Nat.shiftLeft_eq]

theorem testBit_BIT (x i : Nat) : (BIT x).testBit i = decide (x = i) := by
  rw [BIT_eq_pow]; exact Nat.testBit_two_pow

/-- Generic invariant-preservation principle for the loop folds used in the
embedding. -/
theorem foldl_inv {α β : Type} (P : β → Prop) (f : β → α → β) :
    ∀ (l : List α) (b : β), P b → (∀ b' a', a' ∈ l → P b' → P (f b' a')) →
      P (l.foldl f b)
  | [], _, hb, _ => hb
  | a :: l, b, hb, hf =>
    foldl_inv P f l (f b a) (hf b a (List.mem_cons_self a l) hb)
      (fun b' a' ha' hb' => hf b' a' (List.mem_cons_of_mem a ha') hb')

theorem subset_of_testBit {x M : Nat}
    (h : ∀ i, x.testBit i = true → M.testBit i = true) : x &&& M = x := by
  apply Nat.eq_of_testBit_eq
  intro i
  rw [Nat.testBit_land]
  cases hx : x.testBit i
  · simp
  · simp [h i hx]

theorem testBit_of_subset {x M : Nat} (h : x &&& M = x) {i : Nat}
    (hx : x.testBit i = true) : M.testBit i = true := by
  have h2 : (x &&& M).testBit i = x.testBit i := by rw [h]
  rw [Nat.testBit_land, hx] at h2
  simpa using h2

theorem land_subset {x M : Nat} (h : x &&& M = x) (y : Nat) :
    (x &&& y) &&& M = x &&& y := by
  apply subset_of_testBit
  intro i hi
  rw [Nat.testBit_land] at hi
  exact testBit_of_subset h (Bool.and_eq_true .. |>.mp hi).1

theorem subset_or_right {x M B : Nat} (h : x &&& M = x) :
    x &&& (M ||| B) = x := by
  apply subset_of_testBit
  intro i hi
  rw [Nat.testBit_lor, testBit_of_subset h hi]
  rfl

theorem or_subset {x y M : Nat} (hx : x &&& M = x) (hy : y &&& M = y) :
    (x ||| y) &&& M = x ||| y := by
  apply subset_of_testBit
  intro i hi
  rw [Nat.testBit_lor] at hi
  rcases Bool.or_eq_true .. |>.mp hi with h | h
  · exact testBit_of_subset hx h
  · exact testBit_of_subset hy h

theorem subset_or_self_right (B M : Nat) : B &&& (M ||| B) = B := by
  apply subset_of_testBit
  intro i hi
  rw [Nat.testBit_lor, hi]
  simp

/-- The merge guard of `merge_or_masks()` compares the input bits masked
outside the candidate variable; this is the same as requiring the XOR of the
input bits to vanish outside the candidate variable. -/
theorem land_eq_land_iff_xor_land_zero (a b m : Nat) :
    a &&& m = b &&& m ↔ (a ^^^ b) &&& m = 0 := by
  constructor
  · intro h
    apply Nat.eq_of_testBit_eq
    intro i
    have h2 : (a &&& m).testBit i = (b &&& m).testBit i := by rw [h]
    rw [Nat.testBit_land] at h2
    rw [Nat.testBit_land] at h2
    rw [Nat.testBit_land, Nat.testBit_xor, Nat.zero_testBit]
    cases ha : a.testBit i <;> cases hb : b.testBit i <;>
      cases hm : m.testBit i <;> simp_all
  · intro h
    apply Nat.eq_of_testBit_eq
    intro i
    have h2 : ((a ^^^ b) &&& m).testBit i = (0 : Nat).testBit i := by rw [h]
    rw [Nat.testBit_land, Nat.testBit_xor, Nat.zero_testBit] at h2
    rw [Nat.testBit_land]
    rw [Nat.testBit_land]
    cases ha : a.testBit i <;> cases hb : b.testBit i <;>
      cases hm : m.testBit i <;> simp_all

/-! ### List helper lemmas -/

theorem getD_set_self {α : Type} (l : List α) {i : Nat} (a d : α)
    (h : i < l.length) : (l.set i a).getD i d = a := by
  simp [List.getD_eq_getElem?_getD, List.getElem?_set_eq_of_lt a h]

theorem getD_set_ne {α : Type} (l : List α) {i j : Nat} (a d : α)
    (h : i ≠ j) : (l.set i a).getD j d = l.getD j d := by
  simp [List.getD_eq_getElem?_getD, List.getElem?_set_ne h]

theorem getD_mem {α : Type} (l : List α) {i : Nat} (d : α)
    (h : i < l.length) : l.getD i d ∈ l := by
  rw [List.getD_eq_getElem l d h]
  exact List.getElem_mem h

theorem take_set_self {α : Type} :
    ∀ (l : List α) (n : Nat) (a : α), (l.set n a).take n = l.take n
  | [], _, _ => rfl
  | _ :: _, 0, _ => rfl
  | x :: xs, n + 1, a => by
    simp [List.set, List.take_succ_cons, take_set_self xs n a]

theorem drop_drop_one {α : Type} (l : List α) (k : Nat) :
    (l.drop k).drop 1 = l.drop (k + 1) := by
  rw [List.drop_drop, Nat.add_comm]

/-! ### Facts about `bit_count` -/

theorem bit_count_go_congr :
    ∀ (f1 f2 m : Nat), m ≤ f1 → m ≤ f2 → bit_count_go f1 m = bit_count_go f2 m
  | 0, f2, m, h1, _ => by
    have hm : m = 0 := Nat.le_zero.mp h1
    subst hm
    cases f2 <;> simp [bit_count_go]
  | f1 + 1, 0, m, _, h2 => by
    have hm : m = 0 := Nat.le_zero.mp h2
    subst hm
    simp [bit_count_go]
  | f1 + 1, f2 + 1, m, h1, h2 => by
    by_cases hm : m = 0
    · subst hm; simp [bit_count_go]
    · have hlt : m >>> 1 < m := by
        rw [Nat.shiftRight_one]
        exact Nat.div_lt_self (Nat.pos_of_ne_zero hm) (by decide)
      simp only [bit_count_go, if_neg hm]
      exact congrArg _ (bit_count_go_congr f1 f2 (m >>> 1)
        (by omega) (by omega))

/-- The defining recurrence of the C `while` loop of `bit_count()`. -/
theorem bit_count_rec (m : Nat) (h : m ≠ 0) :
    bit_count m = (m &&& 1) + bit_count (m >>> 1) := by
  obtain ⟨k, rfl⟩ : ∃ k, m = k + 1 := ⟨m - 1, by omega⟩
  have hlt : (k + 1) >>> 1 ≤ k := by
    rw [Nat.shiftRight_one]; omega
  show bit_count_go (k + 1) (k + 1) = _
  simp only [bit_count_go, if_neg h]
  exact congrArg _ (bit_count_go_congr k ((k + 1) >>> 1) ((k + 1) >>> 1)
    hlt (Nat.le_refl _))

/-- A value with bit `b` set has strictly more set bits than it has set bits
below position `b`. -/
theorem countP_testBit_lt_bit_count :
    ∀ (b c : Nat), c.testBit b = true →
      (List.range b).countP (fun i => c.testBit i) < bit_count c
  | 0, c, h => by
    have hc0 : c % 2 = 1 := by
      have := Nat.testBit_zero c
      rw [h] at this
      exact of_decide_eq_true this.symm
    have hcne : c ≠ 0 := by omega
    rw [bit_count_rec c hcne, Nat.and_one_is_mod]
    simp [hc0]
  | b + 1, c, h => by
    have hcne : c ≠ 0 := by
      intro h0
      rw [h0, Nat.zero_testBit] at h
      exact Bool.false_ne_true h
    have hdiv : (c / 2).testBit b = true := by
      rw [← Nat.testBit_succ]; exact h
    have ih := countP_testBit_lt_bit_count b (c / 2) hdiv
    have hcount : (List.range (b + 1)).countP (fun i => c.testBit i) =
        ((List.range b).countP (fun i => (c / 2).testBit i)) +
          (if c.testBit 0 then 1 else 0) := by
      rw [List.range_succ_eq_map, List.countP_cons, List.countP_map]
      have : (List.range b).countP ((fun i => c.testBit i) ∘ Nat.succ) =
          (List.range b).countP (fun i => (c / 2).testBit i) := by
        apply List.countP_congr
        intro a _
        simp [Function.comp, Nat.testBit_succ]
      rw [this]
    rw [hcount, bit_count_rec c hcne, Nat.and_one_is_mod, Nat.shiftRight_one]
    have hb0 : (if c.testBit 0 then 1 else 0) ≤ c % 2 := by
      rw [Nat.testBit_zero]
      by_cases h2 : c % 2 = 1 <;> simp [h2]
    omega

/-! ### Characterisation of `build_bit_flip_offsets` -/

/-- Invariant of the `build_bit_flip_offsets()` loop over the first `n` bits:
the running `nbit` counter equals the number of non-ignored bits seen so far,
and every non-ignored bit already processed has been assigned its rank. -/
theorem bfo_aux (ignore : Nat) :
    ∀ n : Nat,
      (((List.range n).foldl
          (fun (st : (Nat → Nat) × Nat) bit =>
            if ignore.testBit bit then st
            else ((fun b => if b = bit then st.2 else st.1 b), st.2 + 1))
          ((fun _ => 0), 0)).2 =
        (List.range n).countP (fun i => !ignore.testBit i)) ∧
      (∀ b, b < n → ignore.testBit b = false →
        ((List.range n).foldl
            (fun (st : (Nat → Nat) × Nat) bit =>
              if ignore.testBit bit then st
              else ((fun b => if b = bit then st.2 else st.1 b), st.2 + 1))
            ((fun _ => 0), 0)).1 b =
          (List.range b).countP (fun i => !ignore.testBit i))
  | 0 => ⟨rfl, fun b hb _ => absurd hb (by omega)⟩
  | n + 1 => by
    obtain ⟨ih1, ih2⟩ := bfo_aux ignore n
    constructor
    · rw [List.range_succ, List.foldl_append, List.countP_append,
        List.foldl_cons, List.foldl_nil, List.countP_cons, List.countP_nil]
      by_cases hig : ignore.testBit n
      · rw [if_pos hig, ih1]
        simp [hig]
      · rw [if_neg hig]
        simp [hig, ih1]
    · intro b hb hnb
      rw [List.range_succ, List.foldl_append, List.foldl_cons, List.foldl_nil]
      by_cases hig : ignore.testBit n
      · rw [if_pos hig]
        have hbn : b ≠ n := by
          intro h; rw [h] at hnb; rw [hnb] at hig; exact Bool.false_ne_true hig
        exact ih2 b (by omega) hnb
      · rw [if_neg hig]
        by_cases hbn : b = n
        · subst hbn
          simpa using ih1
        · simpa [hbn] using ih2 b (by omega) hnb

/-- For a non-ignored bit `b < 32`, `bit_flip_pos[b]` is the rank of `b`
among the non-ignored bits. -/
theorem build_bit_flip_offsets_spec (ignore : Nat) {b : Nat} (hb : b < 32)
    (hni : ignore.testBit b = false) :
    build_bit_flip_offsets ignore b =
      (List.range b).countP (fun i => !ignore.testBit i) :=
  (bfo_aux ignore 32).2 b hb hni

/-! ### `collapse_duplicates` is an order-preserving filter -/

theorem collapse_go_succ (l : List Ent) (n : Nat) :
    collapse_go l (n + 1) =
      if (l.getD n default).pie_affecting_bits ≠ 0 then
        ((if n ≠ (collapse_go l n).2 then
            (collapse_go l n).1.set (collapse_go l n).2 (l.getD n default)
          else (collapse_go l n).1), (collapse_go l n).2 + 1)
      else collapse_go l n := by
  unfold collapse_go
  rw [List.range_succ, List.foldl_append]
  rfl

theorem collapse_aux (l : List Ent) :
    ∀ n : Nat, n ≤ l.length →
      (collapse_go l n).2 ≤ n ∧
      (collapse_go l n).1.length = l.length ∧
      (collapse_go l n).1.take (collapse_go l n).2 =
        (l.take n).filter (fun e => e.pie_affecting_bits != 0) ∧
      (collapse_go l n).1.drop (collapse_go l n).2 =
        l.drop (collapse_go l n).2
  | 0, _ => by
    refine ⟨Nat.le_refl 0, rfl, ?_, rfl⟩
    simp [collapse_go]
  | n + 1, hn => by
    obtain ⟨h1, h2, h3, h4⟩ := collapse_aux l n (by omega)
    have hnl : n < l.length := hn
    have hget : l[n]? = some (l.getD n default) := by
      rw [List.getElem?_eq_getElem hnl, List.getD_eq_getElem l default hnl]
    have htake : l.take (n + 1) =
        l.take n ++ [l.getD n default] := by
      rw [List.take_succ, hget]; rfl
    rw [collapse_go_succ]
    by_cases he : (l.getD n default).pie_affecting_bits ≠ 0
    · rw [if_pos he]
      by_cases hc : n ≠ (collapse_go l n).2
      · rw [if_pos hc]
        have hsc : (collapse_go l n).2 < n := by omega
        have hscl : (collapse_go l n).2 < (collapse_go l n).1.length := by
          omega
        refine ⟨by omega, by rw [List.length_set]; exact h2, ?_, ?_⟩
        · rw [List.take_succ, take_set_self,
            List.getElem?_set_eq_of_lt _ hscl, htake, List.filter_append, h3]
          simp [← List.getD_eq_getElem?_getD, List.filter_singleton, he]
        · rw [List.drop_set_of_lt _ _ (by omega), ← drop_drop_one, h4,
            drop_drop_one]
      · rw [if_neg hc]
        have hceq : (collapse_go l n).2 = n := by omega
        refine ⟨by omega, h2, ?_, ?_⟩
        · have hd : (collapse_go l n).1[(collapse_go l n).2]? =
              some (l.getD n default) := by
            have e1 : (collapse_go l n).1[(collapse_go l n).2]? =
                ((collapse_go l n).1.drop (collapse_go l n).2)[0]? := by
              rw [List.getElem?_drop]
              rfl
            rw [e1, h4, List.getElem?_drop, hceq]
            simpa using hget
          rw [List.take_succ, hd, htake, List.filter_append, h3]
          simp [← List.getD_eq_getElem?_getD, List.filter_singleton, he]
        · rw [← drop_drop_one, h4, drop_drop_one]
    · rw [if_neg he]
      refine ⟨by omega, h2, ?_, h4⟩
      rw [htake, List.filter_append, h3]
      have hfe : ((l.getD n default).pie_affecting_bits != 0) = false := by
        simp at he
        simp [he]
      simp [← List.getD_eq_getElem?_getD, List.filter_singleton, hfe]

/-- Compaction (`collapse_duplicates()`) removes exactly the erased entries
and keeps the live ones in their original order. -/
theorem collapse_eq_filter (l : List Ent) :
    collapse_duplicates_pin l =
      l.filter (fun e => e.pie_affecting_bits != 0) := by
  obtain ⟨_, _, h3, _⟩ := collapse_aux l l.length (Nat.le_refl _)
  unfold collapse_duplicates_pin
  rw [h3, List.take_length]

/-! ### Pointwise characterisation of the classification pass -/

theorem classify_foldl_always_input {b : Nat} (hb : b < 32) :
    ∀ (recs : List CapRec) (s : PinMasks),
      ((recs.foldl classify_step s).pins_always_input).testBit b =
        (s.pins_always_input.testBit b &&
          recs.all (fun r => r.pld_out.testBit b == r.pld_in.testBit b))
  | [], s => by simp
  | r :: recs, s => by
    rw [List.foldl_cons, classify_foldl_always_input hb recs _, List.all_cons]
    simp only [classify_step]
    rw [Nat.testBit_land, testBit_compl32 _ hb, Nat.testBit_xor]
    cases hout : r.pld_out.testBit b <;> cases hin : r.pld_in.testBit b <;>
      simp [Bool.and_assoc]

theorem classify_foldl_output (b : Nat) :
    ∀ (recs : List CapRec) (s : PinMasks),
      ((recs.foldl classify_step s).pins_output).testBit b =
        (s.pins_output.testBit b ||
          recs.any (fun r => (r.pld_out ^^^ r.pld_in).testBit b))
  | [], s => by simp
  | r :: recs, s => by
    rw [List.foldl_cons, classify_foldl_output b recs _, List.any_cons]
    simp only [classify_step]
    rw [Nat.testBit_lor]
    cases hd : (r.pld_out ^^^ r.pld_in).testBit b <;> simp [Bool.or_assoc]

theorem classify_foldl_always_low {b : Nat} (hb : b < 32) :
    ∀ (recs : List CapRec) (s : PinMasks),
      ((recs.foldl classify_step s).pins_always_low).testBit b =
        (s.pins_always_low.testBit b &&
          recs.all (fun r => !r.pld_out.testBit b))
  | [], s => by simp
  | r :: recs, s => by
    rw [List.foldl_cons, classify_foldl_always_low hb recs _, List.all_cons]
    simp only [classify_step]
    rw [Nat.testBit_land, testBit_compl32 _ hb]
    cases hout : r.pld_out.testBit b <;> simp [Bool.and_assoc]

theorem classify_foldl_always_high (b : Nat) :
    ∀ (recs : List CapRec) (s : PinMasks),
      ((recs.foldl classify_step s).pins_always_high).testBit b =
        (s.pins_always_high.testBit b &&
          recs.all (fun r => r.pld_out.testBit b))
  | [], s => by simp
  | r :: recs, s => by
    rw [List.foldl_cons, classify_foldl_always_high b recs _, List.all_cons]
    simp only [classify_step]
    rw [Nat.testBit_land]
    cases hout : r.pld_out.testBit b <;> simp [Bool.and_assoc]

theorem classify_input_le :
    ∀ (recs : List CapRec) (s : PinMasks) (i : Nat),
      ((recs.foldl classify_step s).pins_always_input).testBit i = true →
        s.pins_always_input.testBit i = true
  | [], _, _ => fun h => h
  | r :: recs, s, i => fun h => by
    have h2 := classify_input_le recs _ i h
    simp only [classify_step] at h2
    rw [Nat.testBit_land] at h2
    exact (Bool.and_eq_true .. |>.mp h2).1

theorem classify_low_le :
    ∀ (recs : List CapRec) (s : PinMasks) (i : Nat),
      ((recs.foldl classify_step s).pins_always_low).testBit i = true →
        s.pins_always_low.testBit i = true
  | [], _, _ => fun h => h
  | r :: recs, s, i => fun h => by
    have h2 := classify_low_le recs _ i h
    simp only [classify_step] at h2
    rw [Nat.testBit_land] at h2
    exact (Bool.and_eq_true .. |>.mp h2).1

theorem saw_snd_testBit (i : Nat) :
    ∀ (recs : List CapRec) (p : Nat × Nat),
      ((recs.foldl
          (fun (p : Nat × Nat) r =>
            (p.1 ||| compl32 r.pld_in, p.2 ||| r.pld_in)) p).2).testBit i =
        (p.2.testBit i || recs.any (fun r => r.pld_in.testBit i))
  | [], p => by simp
  | r :: recs, p => by
    rw [List.foldl_cons, saw_snd_testBit i recs _, List.any_cons]
    rw [Nat.testBit_lor]
    cases h : r.pld_in.testBit i <;> simp [Bool.or_assoc]

/-- Extensional reading of the classification pass: `pins_always_input` is
the all-records agreement bit, `pins_output` the some-record disagreement
bit.  Shared by the claim C7 and claim C9 developments. -/
theorem classify_spec_iff (recs : List CapRec) (b : Nat) (hb : b < 32) :
    ((analyze_classify recs).pins_always_input.testBit b = true ↔
      ∀ r ∈ recs, r.pld_out.testBit b = r.pld_in.testBit b) ∧
    ((analyze_classify recs).pins_output.testBit b = true ↔
      ∃ r ∈ recs, ¬(r.pld_out.testBit b = r.pld_in.testBit b)) := by
  constructor
  · rw [analyze_classify, classify_foldl_always_input hb recs classify_init]
    have hinit : classify_init.pins_always_input.testBit b = true := by
      show mask32.testBit b = true
      rw [testBit_mask32]
      exact decide_eq_true hb
    rw [hinit, Bool.true_and, List.all_eq_true]
    constructor
    · intro h r hr
      exact beq_iff_eq .. |>.mp (h r hr)
    · intro h r hr
      exact beq_iff_eq .. |>.mpr (h r hr)
  · rw [analyze_classify, classify_foldl_output b recs classify_init]
    have hinit : classify_init.pins_output.testBit b = false := by
      show (0 : Nat).testBit b = false
      exact Nat.zero_testBit b
    rw [hinit, Bool.false_or, List.any_eq_true]
    constructor
    · intro ⟨r, hr, hx⟩
      refine ⟨r, hr, ?_⟩
      rw [Nat.testBit_xor] at hx
      intro he
      rw [he] at hx
      simp at hx
    · intro ⟨r, hr, hx⟩
      refine ⟨r, hr, ?_⟩
      rw [Nat.testBit_xor]
      cases h1 : r.pld_out.testBit b <;> cases h2 : r.pld_in.testBit b <;>
        simp_all

/-- Claim C7: after the single classification pass, bit `b` of
`pins_always_input` is set exactly when the output equals the input at bit `b`
in every record, and bit `b` of `pins_output` is set exactly when the output
differs from the input at bit `b` in at least one record. -/
theorem claim_C7 (recs : List CapRec) (b : Nat) (hb : b < 32) :
    ((analyze_classify recs).pins_always_input.testBit b = true ↔
      ∀ r ∈ recs, r.pld_out.testBit b = r.pld_in.testBit b) ∧
    ((analyze_classify recs).pins_output.testBit b = true ↔
      ∃ r ∈ recs, ¬(r.pld_out.testBit b = r.pld_in.testBit b)) :=
  classify_spec_iff recs b hb

/-- Witness for claim C7 at the concrete one-record capture `(in,out) =
(1,3)` and bit 1 (an output bit: driven 0, read 1). -/
theorem claim_C7_witness :
    (((analyze_classify [⟨1, 3⟩]).pins_always_input.testBit 1 = true) ↔
      ∀ r ∈ [(⟨1, 3⟩ : CapRec)], r.pld_out.testBit 1 = r.pld_in.testBit 1) ∧
    (((analyze_classify [⟨1, 3⟩]).pins_output.testBit 1 = true) ↔
      ∃ r ∈ [(⟨1, 3⟩ : CapRec)], ¬(r.pld_out.testBit 1 = r.pld_in.testBit 1)) :=
  claim_C7 [⟨1, 3⟩] 1 (by decide)

/-- Claim C9: for a non-empty capture of 32-bit records the classification
masks are pairwise consistent: no pin is both always-low and always-high, no
pin is both output and always-input, and every non-ignored pin is classified
input or output. -/
theorem claim_C9 (recs : List CapRec) (hne : recs ≠ [])
    (hin : ∀ r ∈ recs, r.pld_in < 2 ^ 32) :
    (analyze_classify recs).pins_always_low &&&
        (analyze_classify recs).pins_always_high = 0 ∧
    (analyze_classify recs).pins_output &&&
        (analyze_classify recs).pins_always_input = 0 ∧
    ((analyze_classify recs).pins_always_input |||
          (analyze_classify recs).pins_output) &&&
        compl32 (build_ignore_mask recs) =
      compl32 (build_ignore_mask recs) := by
  obtain ⟨r0, hr0⟩ := List.exists_mem_of_ne_nil recs hne
  refine ⟨?_, ?_, ?_⟩
  · apply Nat.eq_of_testBit_eq
    intro i
    rw [Nat.testBit_land, Nat.zero_testBit]
    by_cases hi : i < 32
    · rw [analyze_classify, classify_foldl_always_low hi recs classify_init,
        classify_foldl_always_high i recs classify_init]
      cases hlo : recs.all (fun r => !r.pld_out.testBit i)
      · simp
      · cases hhi : recs.all (fun r => r.pld_out.testBit i)
        · simp
        · exfalso
          have h1 := List.all_eq_true.mp hlo r0 hr0
          have h2 := List.all_eq_true.mp hhi r0 hr0
          simp only [h2] at h1
          exact Bool.false_ne_true h1
    · cases hlow : ((analyze_classify recs).pins_always_low).testBit i
      · simp
      · exfalso
        have h2 := classify_low_le recs classify_init i hlow
        show False
        have : mask32.testBit i = true := h2
        rw [testBit_mask32] at this
        exact hi (of_decide_eq_true this)
  · apply Nat.eq_of_testBit_eq
    intro i
    rw [Nat.testBit_land, Nat.zero_testBit]
    by_cases hi : i < 32
    · rw [analyze_classify, classify_foldl_always_input hi recs classify_init,
        classify_foldl_output i recs classify_init]
      cases hout : recs.any (fun r => (r.pld_out ^^^ r.pld_in).testBit i)
      · simp [classify_init, Nat.zero_testBit]
      · cases hall : recs.all
            (fun r => r.pld_out.testBit i == r.pld_in.testBit i)
        · simp
        · exfalso
          obtain ⟨r, hr, hx⟩ := List.any_eq_true.mp hout
          have he := List.all_eq_true.mp hall r hr
          rw [Nat.testBit_xor, beq_iff_eq .. |>.mp he] at hx
          simp at hx
    · cases hinp : ((analyze_classify recs).pins_always_input).testBit i
      · simp
      · exfalso
        have h2 := classify_input_le recs classify_init i hinp
        have : mask32.testBit i = true := h2
        rw [testBit_mask32] at this
        exact hi (of_decide_eq_true this)
  · simp only [build_ignore_mask, compl32_compl32]
    apply Nat.eq_of_testBit_eq
    intro i
    rw [Nat.testBit_land, Nat.testBit_lor]
    by_cases hi : i < 32
    · suffices hio : ((analyze_classify recs).pins_always_input.testBit i ||
          (analyze_classify recs).pins_output.testBit i) = true by
        rw [hio, Bool.true_and]
      by_cases hall : ∀ r ∈ recs, r.pld_out.testBit i = r.pld_in.testBit i
      · apply Bool.or_eq_true .. |>.mpr
        exact Or.inl ((classify_spec_iff recs i hi).1.mpr hall)
      · apply Bool.or_eq_true .. |>.mpr
        refine Or.inr ?_
        push_neg at hall
        obtain ⟨r, hr, hx⟩ := hall
        exact (classify_spec_iff recs i hi).2.mpr ⟨r, hr, hx⟩
    · have hsaw : ((recs.foldl
          (fun (p : Nat × Nat) r =>
            (p.1 ||| compl32 r.pld_in, p.2 ||| r.pld_in)) (0, 0)).2).testBit
            i = false := by
        rw [saw_snd_testBit i recs (0, 0), Nat.zero_testBit, Bool.false_or]
        apply List.any_eq_false.mpr
        intro r hr
        have : r.pld_in < 2 ^ i := by
          calc r.pld_in < 2 ^ 32 := hin r hr
          _ ≤ 2 ^ i := Nat.pow_le_pow_right (by decide) (by omega)
        simp [Nat.testBit_lt_two_pow this]
      rw [Nat.testBit_land, hsaw]
      simp

/-- Witness for claim C9 at the concrete one-record capture `(0,0)`. -/
theorem claim_C9_witness :
    (analyze_classify [⟨0, 0⟩]).pins_always_low &&&
        (analyze_classify [⟨0, 0⟩]).pins_always_high = 0 ∧
    (analyze_classify [⟨0, 0⟩]).pins_output &&&
        (analyze_classify [⟨0, 0⟩]).pins_always_input = 0 ∧
    ((analyze_classify [⟨0, 0⟩]).pins_always_input |||
          (analyze_classify [⟨0, 0⟩]).pins_output) &&&
        compl32 (build_ignore_mask [⟨0, 0⟩]) =
      compl32 (build_ignore_mask [⟨0, 0⟩]) :=
  claim_C9 [⟨0, 0⟩] (List.cons_ne_nil _ _) (by decide)

/-! ### Characterisation of `walk_find_affected` -/

theorem walk_line_char (ignore pai : Nat) (pos : Nat → Nat) (outs : List Nat)
    (line : Nat) :
    ∀ (n : Nat) (st : Nat → Nat) (b : Nat),
      ((List.range n).foldl
        (fun st2 bit =>
          if ignore.testBit bit then st2
          else fun b =>
            if b = bit then st2 bit ||| walk_rdiff pai pos outs line bit
            else st2 b)
        st) b =
      (if b < n ∧ ignore.testBit b = false then
        st b ||| walk_rdiff pai pos outs line b
      else st b)
  | 0, st, b => by simp
  | n + 1, st, b => by
    rw [List.range_succ, List.foldl_append, List.foldl_cons, List.foldl_nil]
    by_cases hig : ignore.testBit n
    · rw [if_pos hig, walk_line_char ignore pai pos outs line n st b]
      by_cases hbn : b = n
      · subst hbn
        simp [hig]
      · have hiff : (b < n + 1 ∧ ignore.testBit b = false) ↔
            (b < n ∧ ignore.testBit b = false) := by
          constructor <;> intro ⟨h1, h2⟩ <;> exact ⟨by omega, h2⟩
        rw [if_congr hiff rfl rfl]
    · rw [if_neg hig]
      by_cases hbn : b = n
      · subst hbn
        simp only [if_pos rfl]
        rw [walk_line_char ignore pai pos outs line b st b]
        simp [hig]
      · simp only [if_neg hbn]
        rw [walk_line_char ignore pai pos outs line n st b]
        have hiff : (b < n + 1 ∧ ignore.testBit b = false) ↔
            (b < n ∧ ignore.testBit b = false) := by
          constructor <;> intro ⟨h1, h2⟩ <;> exact ⟨by omega, h2⟩
        rw [if_congr hiff rfl rfl]

theorem walk_line_eval (ignore pai : Nat) (pos : Nat → Nat) (outs : List Nat)
    (st : Nat → Nat) (line b : Nat) :
    walk_line ignore pai pos outs st line b =
      (if b < 28 ∧ ignore.testBit b = false then
        st b ||| walk_rdiff pai pos outs line b
      else st b) := by
  unfold walk_line
  exact walk_line_char ignore pai pos outs line 28 st b

theorem walk_foldl_char (ignore pai : Nat) (pos : Nat → Nat) (outs : List Nat)
    {b : Nat} (hb : b < 28) (hig : ignore.testBit b = false) :
    ∀ (n : Nat) (st : Nat → Nat),
      ((List.range n).foldl (walk_line ignore pai pos outs) st) b =
        (List.range n).foldl
          (fun acc line => acc ||| walk_rdiff pai pos outs line b) (st b)
  | 0, st => rfl
  | n + 1, st => by
    rw [List.range_succ, List.foldl_append, List.foldl_append,
      List.foldl_cons, List.foldl_nil, List.foldl_cons, List.foldl_nil]
    rw [walk_line_eval, if_pos ⟨hb, hig⟩,
      walk_foldl_char ignore pai pos outs hb hig n st]

theorem walk_foldl_unchanged (ignore pai : Nat) (pos : Nat → Nat)
    (outs : List Nat) {b : Nat}
    (hnb : ¬(b < 28 ∧ ignore.testBit b = false)) :
    ∀ (n : Nat) (st : Nat → Nat),
      ((List.range n).foldl (walk_line ignore pai pos outs) st) b = st b
  | 0, st => rfl
  | n + 1, st => by
    rw [List.range_succ, List.foldl_append, List.foldl_cons, List.foldl_nil]
    rw [walk_line_eval, if_neg hnb,
      walk_foldl_unchanged ignore pai pos outs hnb n st]

/-- Claim C8: for every non-ignored bit `b < 28`, `walk_find_affected` ORs
into `pins_affected_by[b]` exactly the per-record masked output differences
`walk_rdiff` (the XOR of a record's output with its bit-flipped neighbour's
output, with bit `b` masked off when `b` is an always-input pin); and for
every always-input pin `b`, bit `b` is never set in `pins_affected_by[b]`. -/
theorem claim_C8 (ignore pai : Nat) (pos : Nat → Nat) (outs : List Nat) :
    (∀ b, b < 28 → ignore.testBit b = false →
      walk_find_affected ignore pai pos outs b =
        (List.range outs.length).foldl
          (fun acc line => acc ||| walk_rdiff pai pos outs line b) 0) ∧
    (∀ b, pai.testBit b = true →
      (walk_find_affected ignore pai pos outs b).testBit b = false) := by
  constructor
  · intro b hb hig
    unfold walk_find_affected
    exact walk_foldl_char ignore pai pos outs hb hig outs.length (fun _ => 0)
  · intro b hpai
    by_cases hcase : b < 28 ∧ ignore.testBit b = false
    · have h1 : walk_find_affected ignore pai pos outs b =
          (List.range outs.length).foldl
            (fun acc line => acc ||| walk_rdiff pai pos outs line b) 0 := by
        unfold walk_find_affected
        exact walk_foldl_char ignore pai pos outs hcase.1 hcase.2
          outs.length (fun _ => 0)
      rw [h1]
      have hmask : ∀ line, (walk_rdiff pai pos outs line b).testBit b =
          false := by
        intro line
        simp only [walk_rdiff, if_pos hpai]
        rw [Nat.testBit_land, testBit_compl32 _ (by omega), testBit_BIT]
        simp
      apply foldl_inv (fun acc : Nat => acc.testBit b = false)
      · exact Nat.zero_testBit b
      · intro acc line _ hacc
        rw [Nat.testBit_lor, hacc, hmask line]
        rfl
    · have h1 : walk_find_affected ignore pai pos outs b = 0 := by
        unfold walk_find_affected
        exact walk_foldl_unchanged ignore pai pos outs hcase outs.length
          (fun _ => 0)
      rw [h1]
      exact Nat.zero_testBit b

/-- Witness for claim C8 on a concrete two-record capture with no ignored
bits: bit 0 accumulates the masked differences, and bit 5 (declared
always-input via `pai = 32`) never records itself. -/
theorem claim_C8_witness :
    walk_find_affected 0 32 (fun _ => 0) [1, 2] 0 =
      (List.range ([1, 2] : List Nat).length).foldl
        (fun acc line => acc ||| walk_rdiff 32 (fun _ => 0) [1, 2] line 0) 0 ∧
    (walk_find_affected 0 32 (fun _ => 0) [1, 2] 5).testBit 5 = false :=
  ⟨(claim_C8 0 32 (fun _ => 0) [1, 2]).1 0 (by decide) (by decide),
   (claim_C8 0 32 (fun _ => 0) [1, 2]).2 5 (by decide)⟩

/-! ### Claims C10, C4, C1, C3 -/

/-- Claim C10: when the record count equals `2 ^ popcount(~ignore_mask)`,
every neighbour index probed by `walk_find_affected` is in bounds: for every
record `k` and non-ignored bit `b < 28`, `1 << bit_flip_pos[b]` and
`k ^ (1 << bit_flip_pos[b])` are both below the record count. -/
theorem claim_C10 (recs : List CapRec) (k b : Nat)
    (hN : recs.length = 2 ^ bit_count (compl32 (build_ignore_mask recs)))
    (hk : k < recs.length) (hb : b < 28)
    (hni : (build_ignore_mask recs).testBit b = false) :
    BIT (build_bit_flip_offsets (build_ignore_mask recs) b) < recs.length ∧
    k ^^^ BIT (build_bit_flip_offsets (build_ignore_mask recs) b) <
      recs.length := by
  have hc : (compl32 (build_ignore_mask recs)).testBit b = true := by
    rw [testBit_compl32 _ (by omega), hni]
    rfl
  have hpos : build_bit_flip_offsets (build_ignore_mask recs) b =
      (List.range b).countP (fun i => !(build_ignore_mask recs).testBit i) :=
    build_bit_flip_offsets_spec (build_ignore_mask recs) (by omega) hni
  have hcount_eq :
      (List.range b).countP (fun i => !(build_ignore_mask recs).testBit i) =
        (List.range b).countP
          (fun i => (compl32 (build_ignore_mask recs)).testBit i) := by
    apply List.countP_congr
    intro a ha
    have halt : a < 32 := by
      have := List.mem_range.mp ha
      omega
    rw [testBit_compl32 _ halt]
  have hlt : build_bit_flip_offsets (build_ignore_mask recs) b <
      bit_count (compl32 (build_ignore_mask recs)) := by
    rw [hpos, hcount_eq]
    exact countP_testBit_lt_bit_count b (compl32 (build_ignore_mask recs)) hc
  constructor
  · rw [hN, BIT_eq_pow]
    exact Nat.pow_lt_pow_right (by decide) hlt
  · rw [hN, BIT_eq_pow]
    apply Nat.xor_lt_two_pow
    · rw [← hN]
      exact hk
    · exact Nat.pow_lt_pow_right (by decide) hlt

/-- Witness for claim C10: the full 2-bit walking capture `0,1,2,3`, record 1,
bit 0. -/
theorem claim_C10_witness :
    BIT (build_bit_flip_offsets
        (build_ignore_mask [⟨0, 0⟩, ⟨1, 1⟩, ⟨2, 2⟩, ⟨3, 3⟩]) 0) <
      ([⟨0, 0⟩, ⟨1, 1⟩, ⟨2, 2⟩, ⟨3, 3⟩] : List CapRec).length ∧
    1 ^^^ BIT (build_bit_flip_offsets
        (build_ignore_mask [⟨0, 0⟩, ⟨1, 1⟩, ⟨2, 2⟩, ⟨3, 3⟩]) 0) <
      ([⟨0, 0⟩, ⟨1, 1⟩, ⟨2, 2⟩, ⟨3, 3⟩] : List CapRec).length :=
  claim_C10 [⟨0, 0⟩, ⟨1, 1⟩, ⟨2, 2⟩, ⟨3, 3⟩] 1 0 (by decide) (by decide)
    (by decide) (by decide)

/-- Claim C4, evaluated at the failing input: on the 3-record capture with
driven inputs `0, 1, 2` the walking-enumeration invariant fails
(`3 ≠ 2 ^ popcount(~ignore_mask) = 4`), yet `analyze()` contains no record
count check: it proceeds into `build_bit_flip_offsets()` and
`walk_find_affected()`, where the neighbour index `1 ^ BIT(bit_flip_pos[1])
= 3` of record 1 at the non-ignored bit 1 is out of bounds for the 3-entry
`pld_out[]` array. -/
theorem claim_C4 :
    ([⟨0, 0⟩, ⟨1, 1⟩, ⟨2, 2⟩] : List CapRec).length ≠
      2 ^ bit_count (compl32 (build_ignore_mask [⟨0, 0⟩, ⟨1, 1⟩, ⟨2, 2⟩])) ∧
    (build_ignore_mask [⟨0, 0⟩, ⟨1, 1⟩, ⟨2, 2⟩]).testBit 1 = false ∧
    ([⟨0, 0⟩, ⟨1, 1⟩, ⟨2, 2⟩] : List CapRec).length ≤
      1 ^^^ BIT (build_bit_flip_offsets
        (build_ignore_mask [⟨0, 0⟩, ⟨1, 1⟩, ⟨2, 2⟩]) 1) := by
  decide

/-- Claim C1 (amended): one pair examination of `merge_or_masks()` merges
exactly when the two terms are live with identical `affecting_bits`, equal
`result_bit`, and `input_bits` agreeing on every bit other than the candidate
variable `pin` (XOR of the inputs vanishes outside `1 << pin`; the XOR may be
`0` as well as `1 << pin`); the merge clears `pin` from the earlier term and
erases the later one; and the compaction pass removes exactly the erased
terms, preserving the order of the live ones. -/
theorem claim_C1 :
    (∀ (l : List Ent) (pin scur cur : Nat),
      merge_pair (BIT pin) scur cur l =
        if ((l.getD scur default).pie_affecting_bits ≠ 0 ∧
            (l.getD scur default).pie_affecting_bits =
              (l.getD cur default).pie_affecting_bits ∧
            (l.getD scur default).pie_result_bit =
              (l.getD cur default).pie_result_bit ∧
            ((l.getD scur default).pie_input_bits ^^^
                (l.getD cur default).pie_input_bits) &&&
              compl32 (BIT pin) = 0) then
          (l.set cur
              { l.getD cur default with pie_affecting_bits := 0 }).set scur
            { l.getD scur default with
              pie_affecting_bits :=
                (l.getD scur default).pie_affecting_bits &&&
                  compl32 (BIT pin) }
        else l) ∧
    (∀ l : List Ent,
      collapse_duplicates_pin l =
        l.filter (fun e => e.pie_affecting_bits != 0)) := by
  constructor
  · intro l pin scur cur
    show (if ((l.getD scur default).pie_affecting_bits ≠ 0 ∧
            (l.getD scur default).pie_affecting_bits =
              (l.getD cur default).pie_affecting_bits ∧
            (l.getD scur default).pie_result_bit =
              (l.getD cur default).pie_result_bit ∧
            (l.getD scur default).pie_input_bits &&& compl32 (BIT pin) =
              (l.getD cur default).pie_input_bits &&& compl32 (BIT pin))
        then _ else l) = _
    exact if_congr
      (and_congr Iff.rfl (and_congr Iff.rfl (and_congr Iff.rfl
        (land_eq_land_iff_xor_land_zero
          (l.getD scur default).pie_input_bits
          (l.getD cur default).pie_input_bits (compl32 (BIT pin))))))
      rfl rfl
  · exact collapse_eq_filter

/-- Counterexample to claim C1 as stated: the table holds two identical live
terms (`input_bits` XOR is `0`, not `1 << p` for any `p`), so by the claim no
pair may be merged and the sweep would leave the table unchanged; the code
nevertheless merges the pair at candidate variable 0 — the second term is
erased and bit 0 is cleared from the survivor. -/
theorem claim_C1_counterexample :
    (Ent.mk 0 1 1 3).pie_input_bits ^^^ (Ent.mk 0 1 1 3).pie_input_bits = 0 ∧
    (Ent.mk 0 1 1 3).pie_affecting_bits ≠ 0 ∧
    merge_or_masks_pin 3 [⟨0, 1, 1, 3⟩, ⟨0, 1, 1, 3⟩] =
      [⟨0, 1, 1, 2⟩, ⟨0, 1, 1, 0⟩] :=
  ⟨rfl, by decide, rfl⟩

/-- Claim C3 (amended): `add_or_mask` appends the projection exactly when no
entry with identical `(result_bit, input_bits)` exists and the table is below
`pi_count_max`; a record whose projection matches an existing entry only with
the opposite polarity is NOT a duplicate and is appended as a second term. -/
theorem claim_C3 (pi_count_max pins_affecting : Nat) (tbl : List Ent)
    (v inp line : Nat) :
    ((¬ ∃ e ∈ tbl, e.pie_input_bits = inp ∧ e.pie_result_bit = v) →
      tbl.length < pi_count_max →
      add_or_mask pi_count_max pins_affecting tbl v inp line =
        tbl ++ [⟨line, v, inp, pins_affecting⟩]) ∧
    ((∃ e ∈ tbl, e.pie_input_bits = inp ∧ e.pie_result_bit = v) →
      add_or_mask pi_count_max pins_affecting tbl v inp line = tbl) ∧
    (pi_count_max ≤ tbl.length →
      add_or_mask pi_count_max pins_affecting tbl v inp line = tbl) := by
  have hany : (tbl.any fun e =>
      e.pie_input_bits == inp && e.pie_result_bit == v) = true ↔
      (∃ e ∈ tbl, e.pie_input_bits = inp ∧ e.pie_result_bit = v) := by
    rw [List.any_eq_true]
    constructor
    · rintro ⟨e, he, hx⟩
      rw [Bool.and_eq_true, beq_iff_eq, beq_iff_eq] at hx
      exact ⟨e, he, hx⟩
    · rintro ⟨e, he, hx⟩
      refine ⟨e, he, ?_⟩
      rw [Bool.and_eq_true, beq_iff_eq, beq_iff_eq]
      exact hx
  refine ⟨?_, ?_, ?_⟩
  · intro hno hlt
    unfold add_or_mask
    rw [if_neg (fun hc => hno (hany.mp hc)), if_neg (by omega)]
  · intro hyes
    unfold add_or_mask
    rw [if_pos (hany.mpr hyes)]
  · intro hge
    unfold add_or_mask
    by_cases hc : (tbl.any fun e =>
        e.pie_input_bits == inp && e.pie_result_bit == v) = true
    · rw [if_pos hc]
    · rw [if_neg hc, if_pos hge]

/-- Witness for claim C3: a fresh insertion is appended, an identical
`(polarity, projection)` pair is discarded, and a full table discards. -/
theorem claim_C3_witness :
    add_or_mask 4 7 [] 1 5 0 = [⟨0, 1, 5, 7⟩] ∧
    add_or_mask 4 7 [⟨0, 1, 5, 7⟩] 1 5 1 = [⟨0, 1, 5, 7⟩] ∧
    add_or_mask 1 7 [⟨0, 1, 5, 7⟩] 0 6 1 = [⟨0, 1, 5, 7⟩] :=
  ⟨(claim_C3 4 7 [] 1 5 0).1 (by simp) (by decide),
   (claim_C3 4 7 [⟨0, 1, 5, 7⟩] 1 5 1).2.1 ⟨⟨0, 1, 5, 7⟩, by simp, rfl, rfl⟩,
   (claim_C3 1 7 [⟨0, 1, 5, 7⟩] 0 6 1).2.2 (by decide)⟩

/-- Counterexample to claim C3 as stated: a record whose projection `5` equals
the projection of an existing term but with the opposite polarity is appended as
a second term — the first observation does not win. -/
theorem claim_C3_counterexample :
    add_or_mask 4 7 [⟨0, 0, 5, 7⟩] 1 5 1 =
      [⟨0, 0, 5, 7⟩, ⟨1, 1, 5, 7⟩] := rfl

/-! ### Claim C5: support containment through the pipeline -/

theorem getD_eq_default {α : Type} (l : List α) (i : Nat) (d : α)
    (h : l.length ≤ i) : l.getD i d = d := by
  rw [List.getD_eq_getElem?_getD, List.getElem?_eq_none h]
  rfl

theorem getD_aff_subset {M : Nat} {l : List Ent} (h : aff_subset_inv M l)
    (i : Nat) :
    (l.getD i default).pie_affecting_bits &&& M =
      (l.getD i default).pie_affecting_bits := by
  by_cases hi : i < l.length
  · exact h _ (getD_mem l default hi)
  · rw [getD_eq_default l i default (by omega)]
    exact Nat.zero_and M

theorem set_aff_subset {M : Nat} {l : List Ent} (h : aff_subset_inv M l)
    (i : Nat) (e' : Ent)
    (ha : e'.pie_affecting_bits &&& M = e'.pie_affecting_bits) :
    aff_subset_inv M (l.set i e') := by
  intro e he
  rcases List.mem_or_eq_of_mem_set he with he2 | he2
  · exact h e he2
  · rw [he2]
    exact ha

theorem merge_pair_aff {M : Nat} (pm scur cur : Nat) (l : List Ent)
    (h : aff_subset_inv M l) : aff_subset_inv M (merge_pair pm scur cur l) := by
  unfold merge_pair
  split
  · exact set_aff_subset (set_aff_subset h cur _ (Nat.zero_and M)) scur _
      (land_subset (getD_aff_subset h scur) _)
  · exact h

theorem merge_or_masks_pin_aff {M : Nat} (pa : Nat) (l : List Ent)
    (h : aff_subset_inv M l) : aff_subset_inv M (merge_or_masks_pin pa l) := by
  unfold merge_or_masks_pin
  apply foldl_inv (aff_subset_inv M) _ _ l h
  intro l0 pin _ h0
  split
  · apply foldl_inv (aff_subset_inv M) _ _ l0 h0
    intro l1 scur _ h1
    apply foldl_inv (aff_subset_inv M) _ _ l1 h1
    intro l2 off _ h2
    exact merge_pair_aff _ _ _ _ h2
  · exact h0

theorem collapse_duplicates_pin_aff {M : Nat} (l : List Ent)
    (h : aff_subset_inv M l) :
    aff_subset_inv M (collapse_duplicates_pin l) := by
  rw [collapse_eq_filter]
  intro e he
  exact h e (List.mem_of_mem_filter he)

theorem ect_complement_aff {M : Nat} (ta ti : Nat) (st1 : List Ent × Nat)
    (scur : Nat) (h : aff_subset_inv M st1.1) :
    aff_subset_inv M (ect_complement ta ti st1 scur).1 := by
  unfold ect_complement
  split
  · exact set_aff_subset h scur _ (land_subset (getD_aff_subset h scur) _)
  · exact h

theorem ect_inner_aff {M : Nat} (tr ta ti cur : Nat) (st : List Ent × Nat)
    (scur : Nat) (h : aff_subset_inv M st.1) :
    aff_subset_inv M (ect_inner tr ta ti cur st scur).1 := by
  unfold ect_inner
  split
  · exact h
  split
  · exact h
  split
  · exact h
  apply ect_complement_aff
  split
  · exact set_aff_subset h scur _ (Nat.zero_and M)
  · exact h

theorem eliminate_common_terms_pin_aff {M : Nat} (l : List Ent) (c0 : Nat)
    (h : aff_subset_inv M l) :
    aff_subset_inv M (eliminate_common_terms_pin l c0).1 := by
  unfold eliminate_common_terms_pin
  apply foldl_inv (fun st : List Ent × Nat => aff_subset_inv M st.1) _ _
    (l, c0) h
  intro st cur _ hst
  split
  · exact hst
  apply foldl_inv (fun st : List Ent × Nat => aff_subset_inv M st.1) _ _
    st hst
  intro st2 scur _ hst2
  exact ect_inner_aff _ _ _ _ _ _ hst2

theorem merge_common_subexpression_aff {M : Nat} (subbit pol : Nat)
    (sup sub : List Ent) (h : aff_subset_inv M sup) :
    aff_subset_inv (M ||| BIT subbit)
      (merge_common_subexpression subbit pol sup sub) := by
  unfold merge_common_subexpression
  have hP : aff_subset_inv (M ||| BIT subbit) sup := by
    intro e he
    exact subset_or_right (h e he)
  apply foldl_inv
    (fun st : List Ent × Bool => aff_subset_inv (M ||| BIT subbit) st.1) _ _
    (sup, false) hP
  intro st subcur _ hst
  split
  · exact hst
  rcases hfind : (List.range st.1.length).find? _ with _ | supcur
  · simp only [hfind]
    exact hst
  · simp only [hfind]
    split
    · exact set_aff_subset hst supcur _ (Nat.zero_and _)
    · apply set_aff_subset hst supcur _
      show ((st.1.getD supcur default).pie_affecting_bits &&&
          compl32 (sub.getD subcur default).pie_affecting_bits |||
            BIT subbit) &&& (M ||| BIT subbit) = _
      exact or_subset (land_subset (getD_aff_subset hst supcur) _)
        (subset_or_self_right _ _)

/-- Claim C5 (amended): the support-containment invariant
`affecting_bits ⊆ M` (with `M = pins_affecting_pin[b]`) holds after term
collection and is preserved by every C6 merge pass, the compaction pass, and
every C7 elimination pass; a C8 factoring pass with sub pin `subbit`
preserves only the weaker `affecting_bits ⊆ M ∪ (1 << subbit)` — the
factored pin bit is injected into supports and need not lie in `M`. -/
theorem claim_C5 (M : Nat) :
    (∀ (bit : Nat) (recs : List CapRec),
      aff_subset_inv M (collect_or_masks_pin M bit recs)) ∧
    (∀ (pi_count_max : Nat) (tbl : List Ent) (v inp line : Nat),
      aff_subset_inv M tbl →
        aff_subset_inv M (add_or_mask pi_count_max M tbl v inp line)) ∧
    (∀ (pa : Nat) (l : List Ent),
      aff_subset_inv M l → aff_subset_inv M (merge_or_masks_pin pa l)) ∧
    (∀ l : List Ent,
      aff_subset_inv M l → aff_subset_inv M (collapse_duplicates_pin l)) ∧
    (∀ (l : List Ent) (c0 : Nat),
      aff_subset_inv M l →
        aff_subset_inv M (eliminate_common_terms_pin l c0).1) ∧
    (∀ (subbit pol : Nat) (sup sub : List Ent),
      aff_subset_inv M sup →
        aff_subset_inv (M ||| BIT subbit)
          (merge_common_subexpression subbit pol sup sub)) := by
  have hadd : ∀ (pi_count_max : Nat) (tbl : List Ent) (v inp line : Nat),
      aff_subset_inv M tbl →
        aff_subset_inv M (add_or_mask pi_count_max M tbl v inp line) := by
    intro pi_count_max tbl v inp line h
    unfold add_or_mask
    split
    · exact h
    split
    · exact h
    intro e he
    rcases List.mem_append.mp he with he2 | he2
    · exact h e he2
    · rw [List.mem_singleton.mp he2]
      exact Nat.and_self M
  refine ⟨?_, hadd, ?_, ?_, ?_, ?_⟩
  · intro bit recs
    unfold collect_or_masks_pin
    apply foldl_inv (aff_subset_inv M) _ _ []
      (fun e he => absurd he (List.not_mem_nil e))
    intro tbl line _ htbl
    exact hadd _ _ _ _ _ htbl
  · intro pa l h
    exact merge_or_masks_pin_aff pa l h
  · intro l h
    exact collapse_duplicates_pin_aff l h
  · intro l c0 h
    exact eliminate_common_terms_pin_aff l c0 h
  · intro subbit pol sup sub h
    exact merge_common_subexpression_aff subbit pol sup sub h

/-- Witness for claim C5 at `M = 4`: a collected table, a merge pass and a
factoring pass on concrete one-term tables. -/
theorem claim_C5_witness :
    aff_subset_inv 4 (collect_or_masks_pin 4 2 [⟨4, 4⟩]) ∧
    aff_subset_inv 4 (merge_or_masks_pin 4 [⟨0, 1, 4, 4⟩]) ∧
    aff_subset_inv (4 ||| BIT 0)
      (merge_common_subexpression 0 1 [⟨0, 1, 4, 4⟩] [⟨0, 1, 4, 4⟩]) :=
  ⟨(claim_C5 4).1 2 [⟨4, 4⟩],
   (claim_C5 4).2.2.1 4 [⟨0, 1, 4, 4⟩] (by decide),
   (claim_C5 4).2.2.2.2.2 0 1 [⟨0, 1, 4, 4⟩] [⟨0, 1, 4, 4⟩] (by decide)⟩

/-- Counterexample to claim C5 as stated: with `pins_affecting_pin[sup] = 4`
(only bit 2 affects the sup pin) and sub pin index 0, the C8 factoring pass
rewrites the sup term to support `{0}`, which is not contained in the
affect mask 4 — the invariant `affecting_bits ⊆ affecting[b]` is violated
after the factoring pass. -/
theorem claim_C5_counterexample :
    aff_subset_inv 4 [(⟨0, 1, 4, 4⟩ : Ent)] ∧
    is_contained_within [⟨0, 1, 4, 4⟩] [⟨0, 1, 4, 4⟩] 1 = true ∧
    ¬ aff_subset_inv 4
        (merge_common_subexpression 0 1 [⟨0, 1, 4, 4⟩] [⟨0, 1, 4, 4⟩]) := by
  decide

/-! ### Claim C6: the cross-pin factoring rewrite -/

/-- The loop of `merge_common_subexpression()` maintains `mcs_inv`. -/
theorem mcs_fold_inv (subbit pol : Nat) (sup sub : List Ent) :
    mcs_inv subbit pol sup sub
      ((List.range sub.length).foldl
        (fun (st : List Ent × Bool) subcur =>
          if (sub.getD subcur default).pie_result_bit ≠ pol then st
          else
            match (List.range st.1.length).find? (fun supcur =>
                (st.1.getD supcur default).pie_result_bit == pol &&
                ((st.1.getD supcur default).pie_affecting_bits &&&
                    (sub.getD subcur default).pie_affecting_bits ==
                  (sub.getD subcur default).pie_affecting_bits) &&
                ((st.1.getD supcur default).pie_input_bits &&&
                    (sub.getD subcur default).pie_input_bits ==
                  (sub.getD subcur default).pie_input_bits)) with
            | none => st
            | some supcur =>
              if st.2 then
                (st.1.set supcur
                  { st.1.getD supcur default with pie_affecting_bits := 0 },
                  true)
              else
                (st.1.set supcur
                  (mcs_rewrite subbit pol (st.1.getD supcur default)
                    (sub.getD subcur default)), true))
        (sup, false)) := by
  apply foldl_inv
  · exact ⟨rfl, fun _ => rfl, fun j _ => Or.inl rfl,
      fun j1 j2 _ _ hne1 _ _ _ => absurd rfl hne1⟩
  · intro st subcur hsc hst
    obtain ⟨l1, flag⟩ := st
    obtain ⟨hlen, hflag, htri, hmod⟩ := hst
    dsimp only at hlen hflag htri hmod ⊢
    by_cases hres : (sub.getD subcur default).pie_result_bit ≠ pol
    · rw [if_pos hres]
      exact ⟨hlen, hflag, htri, hmod⟩
    rw [if_neg hres]
    rcases hfind : (List.range l1.length).find? (fun supcur =>
        (l1.getD supcur default).pie_result_bit == pol &&
        ((l1.getD supcur default).pie_affecting_bits &&&
            (sub.getD subcur default).pie_affecting_bits ==
          (sub.getD subcur default).pie_affecting_bits) &&
        ((l1.getD supcur default).pie_input_bits &&&
            (sub.getD subcur default).pie_input_bits ==
          (sub.getD subcur default).pie_input_bits)) with _ | supcur
    · simp only [hfind]
      exact ⟨hlen, hflag, htri, hmod⟩
    simp only [hfind]
    have hsupcur_lt : supcur < sup.length := by
      have h1 := List.mem_range.mp (List.mem_of_find?_eq_some hfind)
      omega
    have hsupcur_l1 : supcur < l1.length := by omega
    have hpred := List.find?_some hfind
    rw [Bool.and_eq_true, Bool.and_eq_true] at hpred
    obtain ⟨⟨hp_res, hp_aff⟩, hp_inp⟩ := hpred
    rw [beq_iff_eq] at hp_res hp_aff hp_inp
    cases flag
    · -- first hit of the call: rewrite the covering term
      have hsup : l1 = sup := hflag rfl
      subst hsup
      rw [if_neg (by decide : ¬(false = true))]
      refine ⟨?_, ?_, ?_, ?_⟩
      · rw [List.length_set]
      · intro hff
        exact absurd hff (by simp)
      · intro j hj
        by_cases hjs : j = supcur
        · subst hjs
          refine Or.inr (Or.inr ⟨sub.getD subcur default,
            getD_mem sub default (List.mem_range.mp hsc),
            not_not.mp hres, hp_aff, hp_inp, ?_⟩)
          rw [getD_set_self _ _ _ hsupcur_l1]
        · rw [getD_set_ne _ _ _ (fun h => hjs h.symm)]
          exact Or.inl rfl
      · intro j1 j2 hj1 hj2 hne1 hnz1 hne2 hnz2
        by_cases hj1s : j1 = supcur
        · by_cases hj2s : j2 = supcur
          · rw [hj1s, hj2s]
          · exfalso
            rw [getD_set_ne _ _ _ (fun h => hj2s h.symm)] at hne2
            exact hne2 rfl
        · exfalso
          rw [getD_set_ne _ _ _ (fun h => hj1s h.symm)] at hne1
          exact hne1 rfl
    · -- a later hit: erase the covering term
      rw [if_pos rfl]
      refine ⟨?_, ?_, ?_, ?_⟩
      · rw [List.length_set]
        exact hlen
      · intro hff
        exact absurd hff (by simp)
      · intro j hj
        by_cases hjs : j = supcur
        · subst hjs
          refine Or.inr (Or.inl ?_)
          rw [getD_set_self _ _ _ hsupcur_l1]
        · rw [getD_set_ne _ _ _ (fun h => hjs h.symm)]
          exact htri j hj
      · intro j1 j2 hj1 hj2 hne1 hnz1 hne2 hnz2
        by_cases hj1s : j1 = supcur
        · exfalso
          rw [hj1s, getD_set_self _ _ _ hsupcur_l1] at hnz1
          exact hnz1 rfl
        · by_cases hj2s : j2 = supcur
          · exfalso
            rw [hj2s, getD_set_self _ _ _ hsupcur_l1] at hnz2
            exact hnz2 rfl
          · rw [getD_set_ne _ _ _ (fun h => hj1s h.symm)] at hne1 hnz1
            rw [getD_set_ne _ _ _ (fun h => hj2s h.symm)] at hne2 hnz2
            exact hmod j1 j2 hj1 hj2 hne1 hnz1 hne2 hnz2

/-- Claim C6 (amended): in a `merge_common_subexpression()` call, every sup
term is either left unchanged, erased, or — for at most one sup term in the
whole call, the first processed hit — rewritten by `mcs_rewrite` from a
covering sub term at the polarity.  In particular, per sub term only the
first covering sup term is processed; other covering sup terms are left
untouched, and the erase-on-later-hit rule is keyed to the function-wide
`matched` flag, not to the iteration over the sub terms. -/
theorem claim_C6 (subbit pol : Nat) (sup sub : List Ent) :
    (merge_common_subexpression subbit pol sup sub).length = sup.length ∧
    (∀ j, j < sup.length →
      (merge_common_subexpression subbit pol sup sub).getD j default =
        sup.getD j default ∨
      ((merge_common_subexpression subbit pol sup sub).getD j
          default).pie_affecting_bits = 0 ∨
      ∃ t ∈ sub, t.pie_result_bit = pol ∧
        (sup.getD j default).pie_affecting_bits &&& t.pie_affecting_bits =
          t.pie_affecting_bits ∧
        (sup.getD j default).pie_input_bits &&& t.pie_input_bits =
          t.pie_input_bits ∧
        (merge_common_subexpression subbit pol sup sub).getD j default =
          mcs_rewrite subbit pol (sup.getD j default) t) ∧
    (∀ j1 j2, j1 < sup.length → j2 < sup.length →
      (merge_common_subexpression subbit pol sup sub).getD j1 default ≠
        sup.getD j1 default →
      ((merge_common_subexpression subbit pol sup sub).getD j1
          default).pie_affecting_bits ≠ 0 →
      (merge_common_subexpression subbit pol sup sub).getD j2 default ≠
        sup.getD j2 default →
      ((merge_common_subexpression subbit pol sup sub).getD j2
          default).pie_affecting_bits ≠ 0 →
      j1 = j2) := by
  obtain ⟨hlen, _, htri, hmod⟩ := mcs_fold_inv subbit pol sup sub
  exact ⟨hlen, htri, hmod⟩

/-- Witness for claim C6: a one-term sup table rewritten by a covering
one-term sub table at polarity 1. -/
theorem claim_C6_witness :
    (merge_common_subexpression 0 1 [⟨0, 1, 12, 12⟩] [⟨0, 1, 4, 4⟩]).length =
      ([⟨0, 1, 12, 12⟩] : List Ent).length ∧
    ((merge_common_subexpression 0 1 [⟨0, 1, 12, 12⟩] [⟨0, 1, 4, 4⟩]).getD 0
        default = ([⟨0, 1, 12, 12⟩] : List Ent).getD 0 default ∨
      ((merge_common_subexpression 0 1 [⟨0, 1, 12, 12⟩] [⟨0, 1, 4, 4⟩]).getD 0
          default).pie_affecting_bits = 0 ∨
      ∃ t ∈ ([⟨0, 1, 4, 4⟩] : List Ent), t.pie_result_bit = 1 ∧
        (([⟨0, 1, 12, 12⟩] : List Ent).getD 0 default).pie_affecting_bits &&&
            t.pie_affecting_bits = t.pie_affecting_bits ∧
        (([⟨0, 1, 12, 12⟩] : List Ent).getD 0 default).pie_input_bits &&&
            t.pie_input_bits = t.pie_input_bits ∧
        (merge_common_subexpression 0 1 [⟨0, 1, 12, 12⟩] [⟨0, 1, 4, 4⟩]).getD
            0 default =
          mcs_rewrite 0 1 (([⟨0, 1, 12, 12⟩] : List Ent).getD 0 default) t) :=
  ⟨(claim_C6 0 1 [⟨0, 1, 12, 12⟩] [⟨0, 1, 4, 4⟩]).1,
   (claim_C6 0 1 [⟨0, 1, 12, 12⟩] [⟨0, 1, 4, 4⟩]).2.1 0 (by decide)⟩

/-- Counterexample to claim C6 as stated: containment of the sub pin (index
0) in the sup pin holds at polarity 1, the single sub term `{2} → 1`
(aff 4, inp 4) is covered by BOTH sup terms, and the claim asserts that the
second and later matches are erased; but the code breaks out of the search at
the first covering sup term, so the second covering sup term `⟨0,1,20,20⟩`
is left completely untouched (live, not erased, not rewritten). -/
theorem claim_C6_counterexample :
    is_contained_within [⟨0, 1, 12, 12⟩, ⟨0, 1, 20, 20⟩] [⟨0, 1, 4, 4⟩] 1 =
      true ∧
    ((([⟨0, 1, 12, 12⟩, ⟨0, 1, 20, 20⟩] : List Ent).getD 1
          default).pie_affecting_bits &&& 4 = 4 ∧
      (([⟨0, 1, 12, 12⟩, ⟨0, 1, 20, 20⟩] : List Ent).getD 1
          default).pie_input_bits &&& 4 = 4) ∧
    (merge_common_subexpression 0 1 [⟨0, 1, 12, 12⟩, ⟨0, 1, 20, 20⟩]
        [⟨0, 1, 4, 4⟩]).getD 1 default = ⟨0, 1, 20, 20⟩ ∧
    ((merge_common_subexpression 0 1 [⟨0, 1, 12, 12⟩, ⟨0, 1, 20, 20⟩]
        [⟨0, 1, 4, 4⟩]).getD 1 default).pie_affecting_bits ≠ 0 := by
  decide

/-! ### Claim C2: the subsumption-elimination driver loop -/

/-- Claim C2 (amended): when the driver loop around
`eliminate_common_terms()` exits without hitting its iteration cap, all that
is guaranteed is that the final state is the output of a pass that performed
at most one complementation rewrite (the return value counts only
complementations, and the loop exits as soon as it is `≤ 1`); quiescence of
the two rewrites is not guaranteed. -/
theorem claim_C2 (fuel ignore pout : Nat) (tbl : List (List Ent))
    (hexit : (ect_loop fuel ignore pout tbl).2 = false) :
    ∃ tbl0 : List (List Ent),
      (ect_loop fuel ignore pout tbl).1 =
        (eliminate_common_terms ignore pout tbl0).1 ∧
      (eliminate_common_terms ignore pout tbl0).2 ≤ 1 := by
  induction fuel generalizing tbl with
  | zero =>
    by_cases hgt : (eliminate_common_terms ignore pout tbl).2 > 1
    · exfalso
      unfold ect_loop at hexit
      rw [if_pos hgt] at hexit
      exact Bool.false_ne_true hexit.symm
    · refine ⟨tbl, ?_, by omega⟩
      unfold ect_loop
      rw [if_neg hgt]
  | succ fuel ih =>
    by_cases hgt : (eliminate_common_terms ignore pout tbl).2 > 1
    · have hexit2 : (ect_loop fuel ignore pout
          (eliminate_common_terms ignore pout tbl).1).2 = false := by
        unfold ect_loop at hexit
        rw [if_pos hgt] at hexit
        exact hexit
      obtain ⟨tbl0, h1, h2⟩ := ih _ hexit2
      refine ⟨tbl0, ?_, h2⟩
      unfold ect_loop
      rw [if_pos hgt]
      exact h1
    · refine ⟨tbl, ?_, by omega⟩
      unfold ect_loop
      rw [if_neg hgt]

/-- Witness for claim C2 on the empty device: the driver exits at once
without the cap, and the final state is that of a `≤ 1`-rewrite pass. -/
theorem claim_C2_witness :
    ∃ tbl0 : List (List Ent),
      (ect_loop 11 0 0 ([] : List (List Ent))).1 =
        (eliminate_common_terms 0 0 tbl0).1 ∧
      (eliminate_common_terms 0 0 tbl0).2 ≤ 1 :=
  claim_C2 11 0 0 [] (by decide)

/-- Counterexample to claim C2 as stated: on output pin 5 with the three
terms `!P1 & P2` (aff 6, inp 4), `P0 & !P1` (aff 3, inp 1) and `!P0`
(aff 1, inp 0), the first pass performs exactly one complementation
(rewriting `P0 & !P1` to `!P1`), so the driver loop exits immediately and
without its cap — yet on the final state the absorption rewrite can still
fire: the rewritten `!P1` term absorbs `!P1 & P2`. -/
theorem claim_C2_counterexample :
    ect_loop 11 0 (2 ^ 5)
        ((List.replicate 6 ([] : List Ent)).set 5
          [⟨0, 1, 4, 6⟩, ⟨0, 1, 1, 3⟩, ⟨0, 1, 0, 1⟩]) =
      ([[], [], [], [], [], [⟨0, 1, 4, 6⟩, ⟨0, 1, 1, 2⟩, ⟨0, 1, 0, 1⟩]],
        false) ∧
    absorb_fireable [⟨0, 1, 4, 6⟩, ⟨0, 1, 1, 2⟩, ⟨0, 1, 0, 1⟩] = true :=
  ⟨rfl, by decide⟩

end Brutus

